import Mathlib

/- Verification of the Lazor puzzle solving engine (`lazer_final5.py`,
class `Lazor_Solution`): the placement enumerator, the beam simulator
`check_solution` with its helpers `pos_chk`, `reflect` and `refract`,
and the solving loop `__call__`.

Coordinates are embedded as exact rationals `ℚ`.  All coordinate values
produced by the program are half-integers (multiples of 1/2), on which
Python float arithmetic for the operations used here (`+`, `-`, `* 2`,
`- 1`, `/ 2`) is exact, so `ℚ` reproduces the source's arithmetic and
equality tests faithfully.  Python's `x.is_integer()` on such a value
holds exactly when the rational has denominator 1. -/

namespace Lazor

/-- Piece kinds, named as in the source: `A` reflects, `B` absorbs (opaque),
`C` splits. -/
inductive Block where
  | A
  | B
  | C
deriving DecidableEq

/-- A point in the plane (used both for cell keys of `sel_comb` and for
beam/target positions; Python compares ints and floats freely, which `ℚ`
reproduces). -/
abbrev Pos : Type := ℚ × ℚ

/-- A beam state `(x, y, vx, vy)` as unpacked in `check_solution`. -/
structure Lazer where
  x : ℚ
  y : ℚ
  vx : ℚ
  vy : ℚ
deriving DecidableEq

/-- Python `float.is_integer()` on a half-integer value: the rational is an
integer, i.e. has denominator 1. -/
def is_integer (q : ℚ) : Prop := q.den = 1

instance decIsInteger (q : ℚ) : Decidable (is_integer q) :=
  inferInstanceAs (Decidable (q.den = 1))

/-- `Lazor_Solution.pos_chk`: `0 <= x < self.size[0] and 0 <= y < self.size[1]`. -/
def pos_chk (size : ℚ × ℚ) (p : Pos) : Prop :=
  0 ≤ p.1 ∧ p.1 < size.1 ∧ 0 ≤ p.2 ∧ p.2 < size.2

instance decPosChk (size : ℚ × ℚ) (p : Pos) : Decidable (pos_chk size p) :=
  inferInstanceAs (Decidable (_ ∧ _ ∧ _ ∧ _))

/-- `Lazor_Solution.reflect`. -/
def reflect (l : Lazer) : Lazer :=
  if is_integer l.x then ⟨l.x - l.vx, l.y + l.vy, -l.vx, l.vy⟩
  else ⟨l.x + l.vx, l.y - l.vy, l.vx, -l.vy⟩

/-- The advance step `x += vx; y += vy` of `check_solution` (also the shape of
`path1` in `refract`). -/
def moveStep (l : Lazer) : Lazer := ⟨l.x + l.vx, l.y + l.vy, l.vx, l.vy⟩

/-- `Lazor_Solution.refract`: the transmitted path and the reflected path. -/
def refract (l : Lazer) : List Lazer :=
  let path1 : Lazer := ⟨l.x + l.vx, l.y + l.vy, l.vx, l.vy⟩
  let path2 : Lazer :=
    if is_integer l.x then ⟨l.x - l.vx, l.y + l.vy, -l.vx, l.vy⟩
    else ⟨l.x + l.vx, l.y - l.vy, l.vx, -l.vy⟩
  [path1, path2]

/-- The `upd_pos` (entered cell) computation of `check_solution`. -/
def upd_pos (l : Lazer) : Pos :=
  if is_integer l.x ∧ l.vx < 0 then (l.x - 1, (l.y * 2 - 1) / 2)
  else if is_integer l.x ∧ 0 < l.vx then (l.x, (l.y * 2 - 1) / 2)
  else if ¬ is_integer l.x ∧ l.vy < 0 then ((l.x * 2 - 1) / 2, l.y - 1)
  else ((l.x * 2 - 1) / 2, l.y)

/-- A candidate placement: the `sel_comb` Python dict, modelled by its
insertion sequence (key/value pairs in write order). -/
abbrev SelComb : Type := List (Pos × Block)

/-- Python dict lookup on the insertion sequence: the last write to a key
wins (a later assignment to the same key overwrites the earlier one). -/
def dictFind (d : SelComb) (k : Pos) : Option Block :=
  (d.reverse.find? (fun e => decide (e.1 = k))).map (fun e => e.2)

/-- The state of one `check_solution` run: the FIFO `active_lasers` queue,
the beam currently being traced by the inner `while True` loop (`none`
between beams), and `remaining_points`. -/
structure SimState where
  queue : List Lazer
  cur : Option Lazer
  remaining : List Pos
deriving DecidableEq

/-- Result of one loop iteration of `check_solution`: either the function
returns with a Bool, or the loop continues in a new state. -/
inductive StepOut where
  | finished (res : Bool)
  | running (st : SimState)
deriving DecidableEq

/-- The data `check_solution` reads besides the beams and targets: the board
size and the current `sel_comb`. -/
structure Env where
  size : ℚ × ℚ
  selComb : SelComb

/-- One iteration of the loops of `check_solution`.  With `cur = none` the
outer `while active_lasers` loop pops the next beam (or returns
`not remaining_points` when the queue is empty).  With `cur = some l` one
iteration of the inner `while True` loop runs: filter the hit target out of
`remaining_points`, return `True` if none remain, compute the entered cell,
stop the beam when out of bounds, otherwise reflect on `A`, enqueue the two
`refract` children and stop on `C`, stop on `B`, or advance. -/
def simStep (env : Env) : SimState → StepOut
  | ⟨queue, none, remaining⟩ =>
    match queue with
    | [] => .finished remaining.isEmpty
    | l :: rest => .running ⟨rest, some l, remaining⟩
  | ⟨queue, some l, remaining⟩ =>
    let pos : Pos := (l.x, l.y)
    let rem := remaining.filter (fun p => decide (p ≠ pos))
    if rem = [] then .finished true
    else if ¬ pos_chk env.size (upd_pos l) then .running ⟨queue, none, rem⟩
    else
      match dictFind env.selComb (upd_pos l) with
      | some Block.A => .running ⟨queue, some (reflect l), rem⟩
      | some Block.C => .running ⟨queue ++ refract l, none, rem⟩
      | some Block.B => .running ⟨queue, none, rem⟩
      | none => .running ⟨queue, some (moveStep l), rem⟩

/-- Iterate `simStep` with explicit fuel; `none` means the loops did not
finish within `fuel` iterations. -/
def simRun (env : Env) : ℕ → SimState → Option Bool
  | 0, _ => none
  | fuel + 1, st =>
    match simStep env st with
    | .finished b => some b
    | .running st' => simRun env fuel st'

/-- `Lazor_Solution.check_solution`, started on the source beams and the full
target list. -/
def check_solution (env : Env) (fuel : ℕ) (lazers : List Lazer)
    (points : List Pos) : Option Bool :=
  simRun env fuel ⟨lazers, none, points⟩

/-- The list-comprehension predicate `pos not in chosen` used by `__call__`
to drop already-chosen cells. -/
def notMemB (chosen : List Pos) (p : Pos) : Bool := decide (p ∉ chosen)

/-- `itertools.combinations` on a list, in the same order: all selections
containing the first element come first (in order of the rest), then those
that do not. -/
def combinations {α : Type} : ℕ → List α → List (List α)
  | 0, _ => [[]]
  | _ + 1, [] => []
  | n + 1, x :: xs =>
      (combinations n xs).map (fun c => x :: c) ++ combinations (n + 1) xs

/-- The fields of `input_data` that `Lazor_Solution.__init__` stores. -/
structure InputData where
  o_l : List Pos
  size : ℚ × ℚ
  lazers : List Lazer
  points : List Pos
  A : ℕ
  B : ℕ
  C : ℕ
  A_l : List Pos
  B_l : List Pos
  C_l : List Pos

/-- The `sel_comb` dict built in one iteration of the nested loops of
`__call__`: first the chosen `A`, `B`, `C` cells, then the fixed
blocks (written last, so they win on a key clash). -/
def buildSelComb (inp : InputData) (a_comb b_comb c_comb : List Pos) : SelComb :=
  (a_comb.map (fun p => (p, Block.A)) ++ b_comb.map (fun p => (p, Block.B)) ++
      c_comb.map (fun p => (p, Block.C))) ++
    (inp.A_l.map (fun p => (p, Block.A)) ++ inp.B_l.map (fun p => (p, Block.B)) ++
      inp.C_l.map (fun p => (p, Block.C)))

/-- The sequence of candidate placements visited by the nested loops of
`__call__`, in loop order: `A`-combinations outermost, then `B`-combinations
over the open cells not chosen for `A`, then `C`-combinations over the cells
remaining after that. -/
def candList (inp : InputData) : List SelComb :=
  (combinations inp.A inp.o_l).flatMap (fun i_a =>
    let o_l' := inp.o_l.filter (notMemB i_a)
    (combinations inp.B o_l').flatMap (fun i_b =>
      let o_l_b := o_l'.filter (notMemB i_b)
      (combinations inp.C o_l_b).map (fun i_c => buildSelComb inp i_a i_b i_c)))

/-- `self.check_solution()` for one candidate `sel_comb`. -/
def checkOf (inp : InputData) (fuel : ℕ) (sel : SelComb) : Option Bool :=
  check_solution ⟨inp.size, sel⟩ fuel inp.lazers inp.points

/-- The innermost loop of `__call__` (over `C`-combinations): return the
candidate on the first successful check, fall through otherwise.  `none`
propagates a simulation that did not finish within the fuel. -/
def goC (inp : InputData) (fuel : ℕ) (a_comb b_comb : List Pos) :
    List (List Pos) → Option (Option SelComb)
  | [] => some none
  | i_c :: rest =>
    let sel := buildSelComb inp a_comb b_comb i_c
    match checkOf inp fuel sel with
    | none => none
    | some true => some (some sel)
    | some false => goC inp fuel a_comb b_comb rest

/-- The middle loop of `__call__` (over `B`-combinations). -/
def goB (inp : InputData) (fuel : ℕ) (a_comb o_l' : List Pos) :
    List (List Pos) → Option (Option SelComb)
  | [] => some none
  | i_b :: rest =>
    let o_l_b := o_l'.filter (notMemB i_b)
    match goC inp fuel a_comb i_b (combinations inp.C o_l_b) with
    | some none => goB inp fuel a_comb o_l' rest
    | r => r

/-- The outer loop of `__call__` (over `A`-combinations). -/
def goA (inp : InputData) (fuel : ℕ) :
    List (List Pos) → Option (Option SelComb)
  | [] => some none
  | i_a :: rest =>
    let o_l' := inp.o_l.filter (notMemB i_a)
    match goB inp fuel i_a o_l' (combinations inp.B o_l') with
    | some none => goA inp fuel rest
    | r => r

/-- `Lazor_Solution.__call__`: run the triply nested enumeration, returning
the first successful `sel_comb`, or `none` (Python `None`) after exhausting
all candidates.  The outer `some` is the fuel guard: `none` at the outer
level means some candidate's simulation did not finish. -/
def lazorSolve (inp : InputData) (fuel : ℕ) : Option (Option SelComb) :=
  goA inp fuel (combinations inp.A inp.o_l)

/-- The rational is an integer (lies on a vertical/horizontal grid line). -/
def IsIntQ (q : ℚ) : Prop := ∃ k : ℤ, q = (k : ℚ)

/-- The rational is offset from an integer by exactly one half unit. -/
def IsHalfQ (q : ℚ) : Prop := ∃ k : ℤ, q = (k : ℚ) + 1/2

/-- The half-integer invariant on beam states: exactly one of `x`, `y` is an
integer and the other is offset by one half unit, and both deltas are
`±0.5` (the puzzle's beams are diagonal: sources are parsed with both
direction components `±1`, scaled by `0.5`, and `reflect`/`refract` only
negate components, so a zero delta never arises). -/
def HalfInv (l : Lazer) : Prop :=
  ((IsIntQ l.x ∧ IsHalfQ l.y) ∨ (IsHalfQ l.x ∧ IsIntQ l.y)) ∧
    (l.vx = 1/2 ∨ l.vx = -1/2) ∧ (l.vy = 1/2 ∨ l.vy = -1/2)

/-- The board and placement of the C2 trap scenario: a 3×3 board with
reflect (`A`) blocks on the four cells adjacent to the centre cell.  This
placement is reachable: a `.bff` file with a 3×3 grid of `o` cells and
inventory `A 4` makes the enumeration construct it. -/
def env3 : Env :=
  ⟨(3, 3), [((0, 1), Block.A), ((2, 1), Block.A), ((1, 0), Block.A), ((1, 2), Block.A)]⟩

/-- A beam source inside the mirror box (parse of a `.bff` line `L 2 3 1 -1`
on a height-3 grid: `(2*0.5, 3-3*0.5, 1*0.5, -(-1)*0.5)`). -/
def lazTrap : Lazer := ⟨1, 3/2, 1/2, 1/2⟩

/-- A target point the trapped beam never reaches. -/
def trapTargets : List Pos := [(0, 0)]

/-- All simulation states `check_solution` reaches on the trap instance: the
initial state, then the single beam advancing once and cycling through four
reflections forever. -/
def trapStates : List SimState :=
  ⟨[lazTrap], none, trapTargets⟩ ::
    ([lazTrap, ⟨3/2, 2, 1/2, 1/2⟩, ⟨2, 3/2, 1/2, -(1/2)⟩, ⟨3/2, 1, -(1/2), -(1/2)⟩,
        ⟨1, 3/2, -(1/2), 1/2⟩].map (fun s => ⟨[], some s, trapTargets⟩))

/-- The predicate "this candidate's simulation reported success". -/
def successAt (inp : InputData) (fuel : ℕ) : SelComb → Bool :=
  fun sel => decide (checkOf inp fuel sel = some true)

/-- A concrete 1×1 puzzle with no inventory and an unreachable target, used
by witness theorems. -/
def inpW : InputData :=
  { o_l := [(0, 0)], size := (1, 1), lazers := [⟨0, 1/2, -(1/2), 1/2⟩],
    points := [(5, 5)], A := 0, B := 0, C := 0, A_l := [], B_l := [], C_l := [] }

/-- A concrete 3-open-cell puzzle with inventory `(1, 1, 1)`, used by the
counting witness. -/
def inpW3 : InputData :=
  { o_l := [(0, 0), (1, 0), (2, 0)], size := (3, 1), lazers := [], points := []
    A := 1, B := 1, C := 1, A_l := [(9, 9)], B_l := [], C_l := [] }

lemma int_half_absurd {q : ℚ} (h1 : IsIntQ q) (h2 : IsHalfQ q) : False := by
  obtain ⟨m, hm⟩ := h1
  obtain ⟨k, hk⟩ := h2
  rw [hm] at hk
  have h2' : ((2 * m : ℤ) : ℚ) = ((2 * k + 1 : ℤ) : ℚ) := by push_cast; linarith
  have h3 := Int.cast_injective h2'
  omega

lemma is_integer_of_int {q : ℚ} (h : IsIntQ q) : is_integer q := by
  obtain ⟨k, hk⟩ := h
  rw [hk]
  exact Rat.den_intCast k

lemma int_of_is_integer {q : ℚ} (h : is_integer q) : IsIntQ q := by
  refine ⟨q.num, ?_⟩
  conv_lhs => rw [← Rat.num_div_den q]
  rw [h]
  norm_num

lemma not_is_integer_of_half {q : ℚ} (h : IsHalfQ q) : ¬ is_integer q :=
  fun hi => int_half_absurd (int_of_is_integer hi) h

lemma neg_half {v : ℚ} (hv : v = 1/2 ∨ v = -1/2) : -v = 1/2 ∨ -v = -1/2 := by
  rcases hv with rfl | rfl
  · right; norm_num
  · left; norm_num

lemma int_add_half {q v : ℚ} (hq : IsIntQ q) (hv : v = 1/2 ∨ v = -1/2) :
    IsHalfQ (q + v) := by
  obtain ⟨k, rfl⟩ := hq
  rcases hv with rfl | rfl
  · exact ⟨k, rfl⟩
  · exact ⟨k - 1, by push_cast; ring⟩

lemma half_add_half {q v : ℚ} (hq : IsHalfQ q) (hv : v = 1/2 ∨ v = -1/2) :
    IsIntQ (q + v) := by
  obtain ⟨k, rfl⟩ := hq
  rcases hv with rfl | rfl
  · exact ⟨k + 1, by push_cast; ring⟩
  · exact ⟨k, by ring⟩

lemma int_sub_half {q v : ℚ} (hq : IsIntQ q) (hv : v = 1/2 ∨ v = -1/2) :
    IsHalfQ (q - v) := by
  rw [sub_eq_add_neg]
  exact int_add_half hq (neg_half hv)

lemma half_sub_half {q v : ℚ} (hq : IsHalfQ q) (hv : v = 1/2 ∨ v = -1/2) :
    IsIntQ (q - v) := by
  rw [sub_eq_add_neg]
  exact half_add_half hq (neg_half hv)

/-- `refract` produces exactly the advanced beam and the `reflect`-image of
the current beam (the two branches of `path2` are the two branches of
`reflect`). -/
lemma refract_eq (l : Lazer) : refract l = [moveStep l, reflect l] := rfl

/-- C4: Under the half-integer invariant, the entered-cell computation gives
column `x` if `dx > 0` else `x - 1`, row `y - 0.5`, when `x` is the integer
coordinate; and row `y` if `dy > 0` else `y - 1`, column `x - 0.5`, when `y`
is the integer coordinate. -/
theorem upd_pos_entered_cell (l : Lazer) (h : HalfInv l) :
    (IsIntQ l.x → upd_pos l = ((if 0 < l.vx then l.x else l.x - 1), l.y - 1/2)) ∧
    (IsIntQ l.y → upd_pos l = (l.x - 1/2, (if 0 < l.vy then l.y else l.y - 1))) := by
  obtain ⟨hxy, hvx, hvy⟩ := h
  constructor
  · intro hx
    have hxi : is_integer l.x := is_integer_of_int hx
    rcases hvx with hv | hv
    · simp only [upd_pos, hv]
      rw [if_neg (fun hc => by norm_num at hc), if_pos ⟨hxi, by norm_num⟩,
        if_pos (by norm_num : (0:ℚ) < 1/2)]
      simp only [Prod.mk.injEq]
      exact ⟨trivial, by ring⟩
    · simp only [upd_pos, hv]
      rw [if_pos ⟨hxi, by norm_num⟩, if_neg (by norm_num : ¬ (0:ℚ) < -1/2)]
      simp only [Prod.mk.injEq]
      exact ⟨trivial, by ring⟩
  · intro hy
    have hxh : IsHalfQ l.x := by
      rcases hxy with ⟨_, hy'⟩ | ⟨hx', _⟩
      · exact absurd (int_half_absurd hy hy') id
      · exact hx'
    have hxi : ¬ is_integer l.x := not_is_integer_of_half hxh
    rcases hvy with hv | hv
    · simp only [upd_pos, hv]
      rw [if_neg (fun hc => hxi hc.1), if_neg (fun hc => hxi hc.1),
        if_neg (fun hc => by norm_num at hc), if_pos (by norm_num : (0:ℚ) < 1/2)]
      simp only [Prod.mk.injEq]
      exact ⟨by ring, trivial⟩
    · simp only [upd_pos, hv]
      rw [if_neg (fun hc => hxi hc.1), if_neg (fun hc => hxi hc.1),
        if_pos ⟨hxi, by norm_num⟩, if_neg (by norm_num : ¬ (0:ℚ) < -1/2)]
      simp only [Prod.mk.injEq]
      exact ⟨by ring, trivial⟩

/-- C4 witness: a concrete invariant-satisfying state, with the theorem
applied to it. -/
theorem upd_pos_entered_cell_witness :
    HalfInv ⟨1, 3/2, 1/2, 1/2⟩ ∧
      upd_pos ⟨1, 3/2, 1/2, 1/2⟩ =
        ((if 0 < (⟨1, 3/2, 1/2, 1/2⟩ : Lazer).vx then (1:ℚ) else 1 - 1), 3/2 - 1/2) := by
  have hinv : HalfInv ⟨1, 3/2, 1/2, 1/2⟩ :=
    ⟨Or.inl ⟨⟨1, by norm_num⟩, ⟨1, by norm_num⟩⟩, Or.inl rfl, Or.inl rfl⟩
  exact ⟨hinv, (upd_pos_entered_cell _ hinv).1 ⟨1, by norm_num⟩⟩

/-- C5: Under the half-integer invariant, `reflect` negates the delta of the
integer axis and moves by the old delta backwards on that axis and forwards
on the other. -/
theorem reflect_mirrors (l : Lazer) (h : HalfInv l) :
    (IsIntQ l.x → reflect l = ⟨l.x - l.vx, l.y + l.vy, -l.vx, l.vy⟩) ∧
    (IsIntQ l.y → reflect l = ⟨l.x + l.vx, l.y - l.vy, l.vx, -l.vy⟩) := by
  obtain ⟨hxy, _, _⟩ := h
  constructor
  · intro hx
    rw [reflect, if_pos (is_integer_of_int hx)]
  · intro hy
    have hxh : IsHalfQ l.x := by
      rcases hxy with ⟨hx', hy'⟩ | ⟨hx', _⟩
      · exact absurd (int_half_absurd hy hy') id
      · exact hx'
    rw [reflect, if_neg (not_is_integer_of_half hxh)]

/-- C5 witness: the theorem applied at a concrete state on a horizontal grid
line. -/
theorem reflect_mirrors_witness :
    HalfInv ⟨3/2, 2, 1/2, 1/2⟩ ∧
      reflect ⟨3/2, 2, 1/2, 1/2⟩ = ⟨3/2 + 1/2, 2 - 1/2, 1/2, -(1/2)⟩ := by
  have hinv : HalfInv ⟨3/2, 2, 1/2, 1/2⟩ :=
    ⟨Or.inr ⟨⟨1, by norm_num⟩, ⟨2, by norm_num⟩⟩, Or.inl rfl, Or.inl rfl⟩
  exact ⟨hinv, (reflect_mirrors _ hinv).2 ⟨2, by norm_num⟩⟩

/-- C8: one simulation step — advancing, reflecting, or splitting — maps a
state satisfying the half-integer invariant to state(s) satisfying it. -/
theorem half_invariant_preserved (l : Lazer) (h : HalfInv l) :
    HalfInv (moveStep l) ∧ HalfInv (reflect l) ∧ ∀ l' ∈ refract l, HalfInv l' := by
  obtain ⟨hxy, hvx, hvy⟩ := h
  have hmove : HalfInv (moveStep l) := by
    rcases hxy with ⟨hx, hy⟩ | ⟨hx, hy⟩
    · exact ⟨Or.inr ⟨int_add_half hx hvx, half_add_half hy hvy⟩, hvx, hvy⟩
    · exact ⟨Or.inl ⟨half_add_half hx hvx, int_add_half hy hvy⟩, hvx, hvy⟩
  have hrefl : HalfInv (reflect l) := by
    rcases hxy with ⟨hx, hy⟩ | ⟨hx, hy⟩
    · rw [reflect, if_pos (is_integer_of_int hx)]
      exact ⟨Or.inr ⟨int_sub_half hx hvx, half_add_half hy hvy⟩, neg_half hvx, hvy⟩
    · rw [reflect, if_neg (not_is_integer_of_half hx)]
      exact ⟨Or.inl ⟨half_add_half hx hvx, int_sub_half hy hvy⟩, hvx, neg_half hvy⟩
  refine ⟨hmove, hrefl, ?_⟩
  intro l' hl'
  rw [refract_eq, List.mem_cons, List.mem_singleton] at hl'
  rcases hl' with rfl | rfl
  · exact hmove
  · exact hrefl

/-- C8 witness: the theorem applied at a concrete invariant-satisfying
state. -/
theorem half_invariant_preserved_witness :
    HalfInv ⟨2, 3/2, 1/2, -(1/2)⟩ ∧
      (HalfInv (moveStep ⟨2, 3/2, 1/2, -(1/2)⟩) ∧
        HalfInv (reflect ⟨2, 3/2, 1/2, -(1/2)⟩) ∧
        ∀ l' ∈ refract ⟨2, 3/2, 1/2, -(1/2)⟩, HalfInv l') := by
  have hinv : HalfInv ⟨2, 3/2, 1/2, -(1/2)⟩ :=
    ⟨Or.inl ⟨⟨2, by norm_num⟩, ⟨1, by norm_num⟩⟩, Or.inl rfl, Or.inr (by norm_num)⟩
  exact ⟨hinv, half_invariant_preserved _ hinv⟩

lemma trapStates_closed :
    ∀ st ∈ trapStates, ∃ st' ∈ trapStates, simStep env3 st = .running st' := by
  with_unfolding_all decide

lemma trapStates_run (fuel : ℕ) :
    ∀ st ∈ trapStates, simRun env3 fuel st = none := by
  induction fuel with
  | zero => intro st _; rfl
  | succ n ih =>
    intro st hst
    obtain ⟨st', hst', hstep⟩ := trapStates_closed st hst
    simp only [simRun, hstep]
    exact ih st' hst'

/-- C2 (refuted): `check_solution` can loop forever.  With four reflect
blocks boxing in a beam source, the trace revisits the same four states
cyclically, so the simulation is unfinished at every fuel bound — in
particular it visits far fewer than `width × height × 4 = 36` distinct
states yet never terminates. -/
theorem check_solution_nonterminating (fuel : ℕ) :
    check_solution env3 fuel [lazTrap] trapTargets = none :=
  trapStates_run fuel ⟨[lazTrap], none, trapTargets⟩
    (by rw [trapStates]; exact List.mem_cons_self _ _)

/-- C6: entering a `Split` (`C`) cell appends exactly two beams to the end
of the FIFO queue — the transmitted beam advanced one step with unchanged
velocity, and the `reflect`-image of the current state — and ends the
parent beam's own trace (`cur` becomes `none`). -/
theorem split_enqueues (env : Env) (q : List Lazer) (l : Lazer) (rem : List Pos)
    (h1 : rem.filter (fun p => decide (p ≠ (l.x, l.y))) ≠ [])
    (h2 : pos_chk env.size (upd_pos l))
    (h3 : dictFind env.selComb (upd_pos l) = some Block.C) :
    refract l = [moveStep l, reflect l] ∧
      simStep env ⟨q, some l, rem⟩ =
        .running ⟨q ++ refract l, none, rem.filter (fun p => decide (p ≠ (l.x, l.y)))⟩ := by
  refine ⟨refract_eq l, ?_⟩
  simp only [simStep]
  rw [if_neg h1, if_neg (not_not_intro h2)]
  simp only [h3]

/-- C6 witness: the theorem applied to a concrete split configuration. -/
theorem split_enqueues_witness :
    refract ⟨1, 1/2, -(1/2), 1/2⟩ =
        [moveStep ⟨1, 1/2, -(1/2), 1/2⟩, reflect ⟨1, 1/2, -(1/2), 1/2⟩] ∧
      simStep ⟨(2, 2), [((0, 0), Block.C)]⟩ ⟨[], some ⟨1, 1/2, -(1/2), 1/2⟩, [(5, 5)]⟩ =
        .running ⟨[] ++ refract ⟨1, 1/2, -(1/2), 1/2⟩, none,
          [((5 : ℚ), (5 : ℚ))].filter
            (fun p => decide (p ≠ ((⟨1, 1/2, -(1/2), 1/2⟩ : Lazer).x,
              (⟨1, 1/2, -(1/2), 1/2⟩ : Lazer).y)))⟩ :=
  split_enqueues ⟨(2, 2), [((0, 0), Block.C)]⟩ [] ⟨1, 1/2, -(1/2), 1/2⟩ [(5, 5)]
    (by with_unfolding_all decide) (by with_unfolding_all decide)
    (by with_unfolding_all decide)

/-- C7: one `check_solution` iteration never grows `remaining_points`: the
new outstanding list is a sublist of the old one (so its size is
non-increasing, and a point once removed never reappears), and the function
returns `True` as soon as the filtered list becomes empty. -/
theorem targets_monotone (env : Env) (st : SimState) :
    (∀ st', simStep env st = .running st' →
        st'.remaining.Sublist st.remaining ∧
          st'.remaining.length ≤ st.remaining.length ∧
          ∀ p : Pos, p ∉ st.remaining → p ∉ st'.remaining) ∧
    (∀ l, st.cur = some l →
        st.remaining.filter (fun p => decide (p ≠ (l.x, l.y))) = [] →
        simStep env st = .finished true) := by
  obtain ⟨queue, cur, remaining⟩ := st
  cases cur with
  | none =>
    constructor
    · intro st' hst'
      cases queue with
      | nil => exact absurd hst' (by simp [simStep])
      | cons l rest =>
        simp only [simStep] at hst'
        cases hst'
        exact ⟨List.Sublist.refl _, le_refl _, fun p hp => hp⟩
    · intro l hl
      exact Option.noConfusion hl
  | some l =>
    have base : (remaining.filter (fun p => decide (p ≠ (l.x, l.y)))).Sublist remaining :=
      List.filter_sublist _
    have triple : ∀ st' : SimState,
        st'.remaining = remaining.filter (fun p => decide (p ≠ (l.x, l.y))) →
        st'.remaining.Sublist remaining ∧
          st'.remaining.length ≤ remaining.length ∧
          ∀ p : Pos, p ∉ remaining → p ∉ st'.remaining := by
      intro st' hr
      rw [hr]
      exact ⟨base, base.length_le, fun p hp hmem => hp (base.subset hmem)⟩
    constructor
    · intro st' hst'
      simp only [simStep] at hst'
      by_cases hrem : remaining.filter (fun p => decide (p ≠ (l.x, l.y))) = []
      · rw [if_pos hrem] at hst'
        cases hst'
      · rw [if_neg hrem] at hst'
        by_cases hpos : pos_chk env.size (upd_pos l)
        · rw [if_neg (not_not_intro hpos)] at hst'
          rcases hfind : dictFind env.selComb (upd_pos l) with _ | b
          · simp only [hfind] at hst'
            cases hst'
            exact triple _ rfl
          · cases b <;> simp only [hfind] at hst' <;> cases hst' <;> exact triple _ rfl
        · rw [if_pos hpos] at hst'
          cases hst'
          exact triple _ rfl
    · intro l' hl' hfilter
      injection hl' with hl''
      subst hl''
      simp only [simStep]
      rw [if_pos hfilter]

/-- C7 witness: applying the success clause at a state whose only target is
the beam's current position. -/
theorem targets_monotone_witness :
    simStep ⟨(1, 1), []⟩ ⟨[], some ⟨0, 1/2, 1/2, 1/2⟩, [(0, 1/2)]⟩ = .finished true :=
  (targets_monotone ⟨(1, 1), []⟩ ⟨[], some ⟨0, 1/2, 1/2, 1/2⟩, [(0, 1/2)]⟩).2
    ⟨0, 1/2, 1/2, 1/2⟩ rfl (by with_unfolding_all decide)


lemma goC_eq (inp : InputData) (fuel : ℕ) (a_comb b_comb : List Pos)
    (L : List (List Pos))
    (h : ∀ i_c ∈ L, checkOf inp fuel (buildSelComb inp a_comb b_comb i_c) ≠ none) :
    goC inp fuel a_comb b_comb L =
      some ((L.map (fun i_c => buildSelComb inp a_comb b_comb i_c)).find?
        (successAt inp fuel)) := by
  induction L with
  | nil => rfl
  | cons i_c rest ih =>
    have hc := h i_c (List.mem_cons_self _ _)
    rcases hcc : checkOf inp fuel (buildSelComb inp a_comb b_comb i_c) with _ | b
    · exact absurd hcc hc
    · cases b with
      | false =>
        simp only [goC, hcc, List.map_cons]
        rw [List.find?_cons_of_neg _ (by simp [successAt, hcc])]
        exact ih (fun i hi => h i (List.mem_cons_of_mem _ hi))
      | true =>
        simp only [goC, hcc, List.map_cons]
        rw [List.find?_cons_of_pos _ (by simp [successAt, hcc])]

lemma goB_eq (inp : InputData) (fuel : ℕ) (a_comb o_l' : List Pos)
    (L : List (List Pos))
    (h : ∀ i_b ∈ L,
        ∀ i_c ∈ combinations inp.C (o_l'.filter (notMemB i_b)),
        checkOf inp fuel (buildSelComb inp a_comb i_b i_c) ≠ none) :
    goB inp fuel a_comb o_l' L =
      some ((L.flatMap (fun i_b =>
          (combinations inp.C (o_l'.filter (notMemB i_b))).map
            (fun i_c => buildSelComb inp a_comb i_b i_c))).find?
        (successAt inp fuel)) := by
  induction L with
  | nil => rfl
  | cons i_b rest ih =>
    simp only [goB, List.flatMap_cons, List.find?_append]
    rw [goC_eq inp fuel a_comb i_b _ (h i_b (List.mem_cons_self _ _))]
    rcases hfind : ((combinations inp.C (o_l'.filter (notMemB i_b))).map
        (fun i_c => buildSelComb inp a_comb i_b i_c)).find? (successAt inp fuel)
      with _ | sel
    · rw [ih (fun i hi => h i (List.mem_cons_of_mem _ hi))]
      simp [Option.or]
    · simp [Option.or]

lemma goA_eq (inp : InputData) (fuel : ℕ) (L : List (List Pos))
    (h : ∀ i_a ∈ L,
        ∀ i_b ∈ combinations inp.B (inp.o_l.filter (notMemB i_a)),
        ∀ i_c ∈ combinations inp.C
          ((inp.o_l.filter (notMemB i_a)).filter
            (notMemB i_b)),
        checkOf inp fuel (buildSelComb inp i_a i_b i_c) ≠ none) :
    goA inp fuel L =
      some ((L.flatMap (fun i_a =>
          let o_l' := inp.o_l.filter (notMemB i_a)
          (combinations inp.B o_l').flatMap (fun i_b =>
            let o_l_b := o_l'.filter (notMemB i_b)
            (combinations inp.C o_l_b).map
              (fun i_c => buildSelComb inp i_a i_b i_c)))).find?
        (successAt inp fuel)) := by
  induction L with
  | nil => rfl
  | cons i_a rest ih =>
    simp only [goA, List.flatMap_cons, List.find?_append]
    rw [goB_eq inp fuel i_a _ _ (h i_a (List.mem_cons_self _ _))]
    rcases hfind : ((combinations inp.B (inp.o_l.filter (notMemB i_a))).flatMap
        (fun i_b =>
          (combinations inp.C
            ((inp.o_l.filter (notMemB i_a)).filter
              (notMemB i_b))).map
            (fun i_c => buildSelComb inp i_a i_b i_c))).find? (successAt inp fuel)
      with _ | sel
    · rw [ih (fun i hi => h i (List.mem_cons_of_mem _ hi))]
      simp [Option.or]
    · simp [Option.or]

lemma lazorSolve_eq (inp : InputData) (fuel : ℕ)
    (h : ∀ sel ∈ candList inp, checkOf inp fuel sel ≠ none) :
    lazorSolve inp fuel = some ((candList inp).find? (successAt inp fuel)) := by
  rw [lazorSolve, goA_eq inp fuel _ ?side]
  · rfl
  case side =>
    intro i_a ha i_b hb i_c hc
    refine h _ ?_
    exact List.mem_flatMap.mpr ⟨i_a, ha,
      List.mem_flatMap.mpr ⟨i_b, hb, List.mem_map.mpr ⟨i_c, hc, rfl⟩⟩⟩

/-- C1: provided every candidate's simulation terminates, `__call__` returns
the first candidate of the nested `A`/`B`/`C` enumeration whose simulation
reports success, and `None` when no candidate succeeds. -/
theorem solver_first_success (inp : InputData) (fuel : ℕ)
    (h : ∀ sel ∈ candList inp, checkOf inp fuel sel ≠ none) :
    lazorSolve inp fuel = some ((candList inp).find? (successAt inp fuel)) :=
  lazorSolve_eq inp fuel h

/-- C9: the solver is a pure function of the puzzle model: equal inputs give
identical outcomes (the same placement, or both `None`). -/
theorem solver_deterministic (inp1 inp2 : InputData) (fuel : ℕ) (h : inp1 = inp2) :
    lazorSolve inp1 fuel = lazorSolve inp2 fuel := by
  rw [h]

/-- C10: with an empty target list `check_solution` returns `True` for every
placement — immediately at the first beam's position, or vacuously with no
beams — so the solver returns the first enumerated candidate. -/
theorem empty_points_solved :
    (∀ (env : Env) (lazers : List Lazer) (fuel : ℕ), 2 ≤ fuel →
        check_solution env fuel lazers [] = some true) ∧
    (∀ (inp : InputData) (fuel : ℕ) (sel : SelComb) (rest : List SelComb),
        2 ≤ fuel → inp.points = [] → candList inp = sel :: rest →
        lazorSolve inp fuel = some (some sel)) := by
  have part1 : ∀ (env : Env) (lazers : List Lazer) (fuel : ℕ), 2 ≤ fuel →
      check_solution env fuel lazers [] = some true := by
    intro env lazers fuel hf
    obtain ⟨k, rfl⟩ : ∃ k, fuel = k + 2 := ⟨fuel - 2, by omega⟩
    cases lazers with
    | nil =>
      show simRun env (k + 1 + 1) ⟨[], none, []⟩ = some true
      simp [simRun, simStep]
    | cons l rest =>
      show simRun env (k + 1 + 1) ⟨l :: rest, none, []⟩ = some true
      simp [simRun, simStep]
  refine ⟨part1, ?_⟩
  intro inp fuel sel rest hf hpts hcand
  have hone : ∀ s : SelComb, checkOf inp fuel s = some true := by
    intro s
    rw [checkOf, hpts]
    exact part1 _ _ fuel hf
  have hall : ∀ s ∈ candList inp, checkOf inp fuel s ≠ none := by
    intro s _
    rw [hone s]
    simp
  rw [lazorSolve_eq inp fuel hall, hcand,
    List.find?_cons_of_pos _ (by simp [successAt, hone sel])]

lemma combinations_length {α : Type} : ∀ (n : ℕ) (l : List α),
    (combinations n l).length = l.length.choose n
  | 0, l => by simp [combinations]
  | n + 1, [] => by simp [combinations]
  | n + 1, x :: xs => by
    simp only [combinations, List.length_append, List.length_map,
      combinations_length n xs, combinations_length (n + 1) xs, List.length_cons]
    rw [Nat.choose_succ_succ]

lemma sublist_of_mem_combinations {α : Type} :
    ∀ (n : ℕ) (l c : List α), c ∈ combinations n l → c.Sublist l ∧ c.length = n
  | 0, l, c, h => by
    simp only [combinations, List.mem_singleton] at h
    subst h
    exact ⟨List.nil_sublist l, rfl⟩
  | n + 1, [], c, h => by simp [combinations] at h
  | n + 1, x :: xs, c, h => by
    simp only [combinations, List.mem_append, List.mem_map] at h
    rcases h with ⟨c', hc', rfl⟩ | h
    · obtain ⟨hs, hl⟩ := sublist_of_mem_combinations n xs c' hc'
      exact ⟨hs.cons₂ x, by simp [hl]⟩
    · obtain ⟨hs, hl⟩ := sublist_of_mem_combinations (n + 1) xs c h
      exact ⟨hs.cons x, hl⟩

lemma length_filter_not_mem (l c : List Pos)
    (hl : l.Nodup) (hc : c.Sublist l) :
    (l.filter (notMemB c)).length = l.length - c.length := by
  show (l.filter (fun p => decide (p ∉ c))).length = l.length - c.length
  have hperm := List.filter_append_perm (fun p => decide (p ∈ c)) l
  have hnot : (l.filter (fun x => !(decide (x ∈ c)))) =
      l.filter (fun p => decide (p ∉ c)) := by
    apply List.filter_congr
    intro a _
    simp
  have hlen : (l.filter (fun p => decide (p ∈ c))).length +
      (l.filter (fun p => decide (p ∉ c))).length = l.length := by
    have hp := hperm.length_eq
    rw [List.length_append, hnot] at hp
    exact hp
  have hle : (l.filter (fun p => decide (p ∈ c))).length ≤ c.length := by
    have hnd : (l.filter (fun p => decide (p ∈ c))).Nodup := hl.filter _
    have hsub : (l.filter (fun p => decide (p ∈ c))) ⊆ c := by
      intro a ha
      simpa using List.of_mem_filter ha
    exact (hnd.subperm hsub).length_le
  have hge : c.length ≤ (l.filter (fun p => decide (p ∈ c))).length := by
    have hcs : c.filter (fun p => decide (p ∈ c)) = c :=
      List.filter_eq_self.mpr (fun a ha => by simpa using ha)
    have hss := hc.filter (fun p => decide (p ∈ c))
    rw [hcs] at hss
    exact hss.length_le
  omega

lemma sum_map_const {α : Type} (l : List α) (f : α → ℕ) (c : ℕ)
    (h : ∀ a ∈ l, f a = c) : (l.map f).sum = l.length * c := by
  induction l with
  | nil => simp
  | cons x xs ih =>
    simp only [List.map_cons, List.sum_cons, List.length_cons]
    rw [h x (List.mem_cons_self _ _), ih (fun a ha => h a (List.mem_cons_of_mem _ ha))]
    ring

/-- C3: the nested enumeration visits exactly
`C(n, nA) · C(n−nA, nB) · C(n−nA−nB, nC)` candidates (for distinct open
cells); it is empty when the inventory exceeds the open cells, and with an
all-zero inventory it consists of exactly one placement: the fixed cells
alone. -/
theorem enumeration_count (inp : InputData) (hnd : inp.o_l.Nodup) :
    (candList inp).length =
        inp.o_l.length.choose inp.A * (inp.o_l.length - inp.A).choose inp.B *
          (inp.o_l.length - inp.A - inp.B).choose inp.C ∧
      (inp.o_l.length < inp.A + inp.B + inp.C → candList inp = []) ∧
      (inp.A = 0 → inp.B = 0 → inp.C = 0 →
        candList inp = [inp.A_l.map (fun p => (p, Block.A)) ++
          inp.B_l.map (fun p => (p, Block.B)) ++
          inp.C_l.map (fun p => (p, Block.C))]) := by
  have hcount : (candList inp).length =
      inp.o_l.length.choose inp.A * (inp.o_l.length - inp.A).choose inp.B *
        (inp.o_l.length - inp.A - inp.B).choose inp.C := by
    rw [candList, List.length_flatMap]
    have hconst : ∀ i_a ∈ combinations inp.A inp.o_l,
        (List.length ∘ fun i_a =>
          ((combinations inp.B (inp.o_l.filter (notMemB i_a))).flatMap
            (fun i_b =>
              (combinations inp.C
                ((inp.o_l.filter (notMemB i_a)).filter
                  (notMemB i_b))).map
                (fun i_c => buildSelComb inp i_a i_b i_c)))) i_a =
          (inp.o_l.length - inp.A).choose inp.B *
            (inp.o_l.length - inp.A - inp.B).choose inp.C := by
      intro i_a hia
      obtain ⟨hsub, hlen⟩ := sublist_of_mem_combinations inp.A inp.o_l i_a hia
      have hol' : (inp.o_l.filter (notMemB i_a)).length =
          inp.o_l.length - inp.A := by
        rw [length_filter_not_mem _ _ hnd hsub, hlen]
      have hol'nd : (inp.o_l.filter (notMemB i_a)).Nodup :=
        hnd.filter _
      simp only [Function.comp_apply]
      rw [List.length_flatMap]
      have hconstB : ∀ i_b ∈ combinations inp.B
            (inp.o_l.filter (notMemB i_a)),
          (List.length ∘ fun i_b =>
            ((combinations inp.C
              ((inp.o_l.filter (notMemB i_a)).filter
                (notMemB i_b))).map
              (fun i_c => buildSelComb inp i_a i_b i_c))) i_b =
            (inp.o_l.length - inp.A - inp.B).choose inp.C := by
        intro i_b hib
        obtain ⟨hsubB, hlenB⟩ := sublist_of_mem_combinations inp.B _ i_b hib
        simp only [Function.comp_apply, List.length_map]
        rw [combinations_length, length_filter_not_mem _ _ hol'nd hsubB, hlenB, hol']
      rw [sum_map_const _ _ _ hconstB, combinations_length, hol']
    rw [sum_map_const _ _ _ hconst, combinations_length]
    ring
  refine ⟨hcount, ?_, ?_⟩
  · intro hlt
    have h0 : (candList inp).length = 0 := by
      rw [hcount]
      by_cases h1 : inp.o_l.length < inp.A
      · rw [Nat.choose_eq_zero_of_lt h1]
        simp
      · push_neg at h1
        by_cases h2 : inp.o_l.length - inp.A < inp.B
        · rw [Nat.choose_eq_zero_of_lt h2]
          simp
        · push_neg at h2
          have h3 : inp.o_l.length - inp.A - inp.B < inp.C := by omega
          rw [Nat.choose_eq_zero_of_lt h3]
          simp
    exact List.length_eq_zero.mp h0
  · intro hA hB hC
    simp [candList, hA, hB, hC, combinations, buildSelComb]

/-- C1 witness: the theorem applied to a concrete puzzle whose only
candidate fails, so the solver returns `None`. -/
theorem solver_first_success_witness :
    (∀ sel ∈ candList inpW, checkOf inpW 6 sel ≠ none) ∧
      lazorSolve inpW 6 = some ((candList inpW).find? (successAt inpW 6)) :=
  ⟨by with_unfolding_all decide, solver_first_success inpW 6 (by with_unfolding_all decide)⟩

/-- C9 witness: the theorem applied at a concrete puzzle. -/
theorem solver_deterministic_witness : lazorSolve inpW 6 = lazorSolve inpW 6 :=
  solver_deterministic inpW inpW 6 rfl

/-- C10 witness: the success clause applied at a concrete empty target
list. -/
theorem empty_points_solved_witness :
    check_solution ⟨(1, 1), []⟩ 2 [] [] = some true :=
  empty_points_solved.1 ⟨(1, 1), []⟩ [] 2 (by norm_num)

/-- C3 witness: on three distinct open cells with inventory `(1, 1, 1)` the
enumeration has `C(3,1) · C(2,1) · C(1,1) = 6` candidates. -/
theorem enumeration_count_witness :
    inpW3.o_l.Nodup ∧ (candList inpW3).length = 6 := by
  have h : inpW3.o_l.Nodup := by with_unfolding_all decide
  refine ⟨h, ?_⟩
  rw [(enumeration_count inpW3 h).1]
  with_unfolding_all decide

end Lazor
